import Mathlib

/-!
Verification of the data-processing core of the school-finder-uk repository:
the CSV field splitter, the grouped median aggregator (process-house-prices.ts)
and the polygon simplification / coordinate rounding pipeline
(the boundary-processing script).

JavaScript strings are modelled as `List Char`, JavaScript numbers holding
integer values as `Int`, and floating-point arithmetic as exact arithmetic
(`ℚ` for the rounding/median components, `ℝ` for the geometric components,
which use square roots).  `Math.round` is modelled by its ECMAScript
definition: the nearest integer, ties toward positive infinity.
-/

/-! ### Delimited-record reader (`parseCSVLine`) -/

/-- Tail of `parseCSVLine`: one left-to-right scan over the remaining
characters, carrying the "inside quotes" flag and the accumulated current
field, emitting a field at each unquoted comma and a final field at the end
of the line.  Mirrors the `for` loop of `parseCSVLine` in
`scripts/process-house-prices.ts`, where the doubled-quote case advances the
index by two. -/
def parseCSVLineAux : Bool → List Char → List Char → List (List Char)
  | true, cur, '"' :: '"' :: rest => parseCSVLineAux true (cur ++ ['"']) rest
  | inQ, cur, '"' :: rest => parseCSVLineAux (!inQ) cur rest
  | false, cur, ',' :: rest => cur :: parseCSVLineAux false [] rest
  | inQ, cur, c :: rest => parseCSVLineAux inQ (cur ++ [c]) rest
  | _, cur, [] => [cur]

/-- `parseCSVLine` from `scripts/process-house-prices.ts`. -/
def parseCSVLine (line : List Char) : List (List Char) :=
  parseCSVLineAux false [] line

/-! ### Group-key derivation (`extractPostcodeDistrict`) -/

/-- The whitespace characters removed by `String.prototype.trim` (ASCII
subset; the data in question contains only ASCII). -/
def isJSSpace (c : Char) : Bool :=
  c == ' ' || c == '\t' || c == '\n' || c == '\r' || c == '\x0b' || c == '\x0c'

/-- `String.prototype.trim`: drop leading and trailing whitespace. -/
def jsTrim (s : List Char) : List Char :=
  ((s.dropWhile isJSSpace).reverse.dropWhile isJSSpace).reverse

/-- `String.prototype.toUpperCase` (ASCII subset). -/
def jsToUpper (s : List Char) : List Char :=
  s.map Char.toUpper

/-- `String.prototype.indexOf` for a single character: the index of the first
occurrence, `none` when absent (JS returns `-1`). -/
def jsIndexOf : List Char → Char → Option Nat
  | [], _ => none
  | c :: t, target => if c = target then some 0 else (jsIndexOf t target).map (· + 1)

/-- `extractPostcodeDistrict` from `scripts/process-house-prices.ts`:
trim, uppercase, and take the substring before the first `' '`;
`none` when the trimmed string contains no space. -/
def extractPostcodeDistrict (postcode : List Char) : Option (List Char) :=
  let trimmed := jsToUpper (jsTrim postcode)
  match jsIndexOf trimmed ' ' with
  | none => none
  | some spaceIndex => some (trimmed.take spaceIndex)

/-- The spec's description of group-key derivation, written independently of
the source: uppercase the (trimmed) key source and take the prefix before the
first space character, rejecting when no space occurs.  Used to compare the
source function against the spec's words. -/
def extractDistrictSpec (postcode : List Char) : Option (List Char) :=
  let trimmed := jsToUpper (jsTrim postcode)
  if ' ' ∈ trimmed then some (trimmed.takeWhile (fun c => c != ' ')) else none

/-! ### Numeric and date field parsing -/

/-- The digits-only part of `parseInt(s, 10)`: value of the maximal leading
digit run, `none` (JS `NaN`) when there is no leading digit. -/
def jsParseIntDigits (s : List Char) : Option Int :=
  let ds := s.takeWhile Char.isDigit
  if ds = [] then none
  else some (ds.foldl (fun a c => a * 10 + ((c.toNat : Int) - 48)) 0)

/-- ECMAScript `parseInt(s, 10)`: skip leading whitespace, optional sign,
then the maximal leading digit run; `none` models `NaN`. -/
def jsParseInt (s : List Char) : Option Int :=
  match s.dropWhile isJSSpace with
  | '-' :: rest => (jsParseIntDigits rest).map (fun n => -n)
  | '+' :: rest => jsParseIntDigits rest
  | t => jsParseIntDigits t

/-- Models the ECMAScript `Date` constructor as used on this dataset's
`YYYY-MM-DD HH:MM` date strings, at day granularity: a string starting with a
well-formed `YYYY-MM-DD` (followed by nothing or by a space and a time part,
which is ignored) yields a timestamp that orders dates chronologically;
anything else is an invalid date (`none`, modelling a `NaN` time value).
A comparison `date < cutoff` on an invalid date is false (`NaN` comparison
semantics), which is encoded at the use site in `processLine`. -/
def jsDate (s : List Char) : Option Int :=
  match s with
  | y1 :: y2 :: y3 :: y4 :: '-' :: m1 :: m2 :: '-' :: d1 :: d2 :: rest =>
    if (y1.isDigit && y2.isDigit && y3.isDigit && y4.isDigit &&
        m1.isDigit && m2.isDigit && d1.isDigit && d2.isDigit) &&
        (rest.isEmpty || rest.headD 'x' == ' ') then
      let y : Int := (((y1.toNat * 10 + y2.toNat) * 10 + y3.toNat) * 10 + y4.toNat : Nat) - 53328
      let mo : Int := (m1.toNat * 10 + m2.toNat : Nat) - 528
      let d : Int := (d1.toNat * 10 + d2.toNat : Nat) - 528
      if 1 ≤ mo ∧ mo ≤ 12 ∧ 1 ≤ d ∧ d ≤ 31 then
        some (y * 10000 + mo * 100 + d)
      else none
    else none
  | _ => none

/-! ### Grouped median aggregation (`main` of process-house-prices.ts) -/

/-- One `pricesByDistrict.get(district)!.push(price)` step, with
`pricesByDistrict` modelled as an insertion-ordered association list
(JavaScript `Map` preserves insertion order): append to the existing group or
create a fresh one at the end. -/
def addToGroup : List (List Char × List Int) → List Char → Int → List (List Char × List Int)
  | [], k, v => [(k, [v])]
  | (k', vs) :: rest, k, v =>
    if k' = k then (k', vs ++ [v]) :: rest else (k', vs) :: addToGroup rest k v

/-- The aggregation state of `main` in `scripts/process-house-prices.ts`:
the `pricesByDistrict` map and the `processed` / `skipped` counters. -/
structure AggState where
  groups : List (List Char × List Int)
  processed : Nat
  skipped : Nat
deriving DecidableEq

/-- One iteration of the `for await (const line of rl)` loop of `main` in
`scripts/process-house-prices.ts`: parse the line, run the four rejection
checks in source order (field count, falsy postcode / `NaN` / non-positive
price, date strictly older than the cutoff — false for an invalid date, per
`NaN` comparison semantics — and failed district derivation), and either
bump `skipped` or append the price to the district's group and bump
`processed`. -/
def processLine (cutoff : Int) (st : AggState) (line : List Char) : AggState :=
  let fields := parseCSVLine line
  if fields.length < 4 then { st with skipped := st.skipped + 1 }
  else
    let price := jsParseInt (fields.getD 1 [])
    let dateStr := fields.getD 2 []
    let postcode := fields.getD 3 []
    if postcode = [] ∨ price = none ∨ price.getD 0 ≤ 0 then
      { st with skipped := st.skipped + 1 }
    else if (match jsDate dateStr with
             | some t => decide (t < cutoff)
             | none => false) then
      { st with skipped := st.skipped + 1 }
    else
      match extractPostcodeDistrict postcode with
      | none => { st with skipped := st.skipped + 1 }
      | some district =>
        { st with
            groups := addToGroup st.groups district (price.getD 0),
            processed := st.processed + 1 }

/-- A concrete input line `id,100,notadate,AB1 2CD`: four fields, a positive
price, a date field the `Date` constructor cannot parse, and a derivable
district key. -/
def badDateLine : List Char :=
  ['i', 'd', ',', '1', '0', '0', ',', 'n', 'o', 't', 'a', 'd', 'a', 't', 'e',
   ',', 'A', 'B', '1', ' ', '2', 'C', 'D']

/-! ### Median (`calculateMedian`) -/

/-- ECMAScript `Math.round` in exact arithmetic: the nearest integer, ties
toward positive infinity, i.e. `⌊x + 1/2⌋`. -/
def jsRound (x : ℚ) : Int := ⌊x + 1 / 2⌋

/-- `calculateMedian` from `scripts/process-house-prices.ts`: `0` on an empty
list; otherwise sort ascending (`sort((a, b) => a - b)`), take the middle
element at odd length and `Math.round` of the average of the two middle
elements at even length. -/
def calculateMedian (values : List Int) : Int :=
  if values.length = 0 then 0
  else
    let sorted := values.insertionSort (· ≤ ·)
    let mid := sorted.length / 2
    if sorted.length % 2 = 0 then
      jsRound (((sorted.getD (mid - 1) 0 : ℚ) + (sorted.getD mid 0 : ℚ)) / 2)
    else
      sorted.getD mid 0

/-! ### Coordinate quantizer (`roundCoordinates`) -/

/-- The `roundCoord` closure of `roundCoordinates` in the boundary-processing
script: with `factor = 10 ^ precision`, each coordinate becomes
`Math.round(coord * factor) / factor`. -/
def roundCoord (precision : Nat) (c : ℚ × ℚ) : ℚ × ℚ :=
  let factor : ℚ := 10 ^ precision
  ((jsRound (c.1 * factor) : ℚ) / factor, (jsRound (c.2 * factor) : ℚ) / factor)

/-! ### Ring simplification (boundary-processing script)

Coordinates are modelled as real numbers because `perpendicularDistance`
takes square roots.  The mutable `Set<number>` of kept indices is modelled as
a `Finset ℕ`; `rdp` returns the set of indices it adds.  The source's `rdp`
does not terminate when the maximum distance exceeds the tolerance but no
strictly interior index attains a positive distance (then `maxIndex` stays at
`start` and `rdp(points, maxIndex, end)` repeats the call verbatim); that
divergence — reachable only with a negative tolerance — is modelled by the
`none` result. -/

/-- `perpendicularDistance` from the boundary-processing script: Euclidean
distance to `lineStart` for a zero-length segment, otherwise distance to the
projection onto the infinite line through the segment. -/
noncomputable def perpendicularDistance (point lineStart lineEnd : ℝ × ℝ) : ℝ :=
  let dx := lineEnd.1 - lineStart.1
  let dy := lineEnd.2 - lineStart.2
  if dx = 0 ∧ dy = 0 then
    Real.sqrt ((point.1 - lineStart.1) ^ 2 + (point.2 - lineStart.2) ^ 2)
  else
    let t := ((point.1 - lineStart.1) * dx + (point.2 - lineStart.2) * dy) /
      (dx * dx + dy * dy)
    let nearestX := lineStart.1 + t * dx
    let nearestY := lineStart.2 + t * dy
    Real.sqrt ((point.1 - nearestX) ^ 2 + (point.2 - nearestY) ^ 2)

/-- The maximum-distance scan of `rdp`: starting from `maxDist = 0`,
`maxIndex = start`, fold over the interior indices `start+1, …, end-1`,
replacing the pair whenever a strictly larger distance is found (so the first
index attaining the maximum wins). -/
noncomputable def findMax (points : List (ℝ × ℝ)) (s e : Nat) : ℝ × Nat :=
  let startPt := points.getD s (0, 0)
  let endPt := points.getD e (0, 0)
  (List.range' (s + 1) (e - (s + 1))).foldl
    (fun acc i =>
      let dist := perpendicularDistance (points.getD i (0, 0)) startPt endPt
      if acc.1 < dist then (dist, i) else acc)
    (0, s)

/-- The recursive `rdp` of `simplifyRing`: nothing to do when the range has
no interior; otherwise find the interior index of maximum perpendicular
distance to the chord and, when that distance exceeds the tolerance, keep it
and recurse on both halves.  Returns the `Finset` of kept interior indices,
or `none` for the source's divergent case (`maxIndex = start`). -/
noncomputable def rdp (points : List (ℝ × ℝ)) (tolerance : ℝ) (s e : Nat) :
    Option (Finset Nat) :=
  if e ≤ s + 1 then some ∅
  else
    if tolerance < (findMax points s e).1 then
      if _h : s < (findMax points s e).2 ∧ (findMax points s e).2 < e then
        match rdp points tolerance s (findMax points s e).2,
            rdp points tolerance (findMax points s e).2 e with
        | some l, some r => some (insert (findMax points s e).2 (l ∪ r))
        | _, _ => none
      else none
    else some ∅
termination_by e - s
decreasing_by
  · omega
  · omega

/-- `simplifyRing` from the boundary-processing script: rings of fewer than 4
points pass through; otherwise run `rdp` over the whole index range with the
endpoints pre-kept, sort the kept indices ascending and map them back to
points. -/
noncomputable def simplifyRing (ring : List (ℝ × ℝ)) (tolerance : ℝ) :
    Option (List (ℝ × ℝ)) :=
  if ring.length < 4 then some ring
  else
    match rdp ring tolerance 0 (ring.length - 1) with
    | none => none
    | some added =>
      let keep : Finset Nat := insert 0 (insert (ring.length - 1) added)
      some ((keep.sort (· ≤ ·)).map (fun i => ring.getD i (0, 0)))

/-- The closed unit-square ring `[(0,0), (0,1), (1,1), (1,0)]`, a 4-point
ring on which every stage of `simplifyRing` executes. -/
noncomputable def unitSquare : List (ℝ × ℝ) :=
  [(0, 0), (0, 1), (1, 1), (1, 0)]

/-! ## Helper lemmas about the maximum-distance scan -/

/-- A fold that replaces its accumulator only on a strict increase either
returns the initial accumulator unchanged, or returns a pair whose index was
visited and whose value strictly exceeds the initial one. -/
theorem foldlMax_cases (f : Nat → ℝ) (L : List Nat) (acc : ℝ × Nat) :
    L.foldl (fun a i => if a.1 < f i then (f i, i) else a) acc = acc ∨
    ((L.foldl (fun a i => if a.1 < f i then (f i, i) else a) acc).2 ∈ L ∧
      acc.1 < (L.foldl (fun a i => if a.1 < f i then (f i, i) else a) acc).1) := by
  induction L generalizing acc with
  | nil => exact Or.inl rfl
  | cons c L ih =>
    simp only [List.foldl_cons]
    by_cases h : acc.1 < f c
    · rw [if_pos h]
      rcases ih (f c, c) with h1 | h1
      · exact Or.inr ⟨by rw [h1]; exact List.mem_cons_self c L, by rw [h1]; exact h⟩
      · exact Or.inr ⟨List.mem_cons_of_mem c h1.1, lt_trans h h1.2⟩
    · rw [if_neg h]
      rcases ih acc with h1 | h1
      · exact Or.inl h1
      · exact Or.inr ⟨List.mem_cons_of_mem c h1.1, h1.2⟩

/-- `findMax` written as the fold that `foldlMax_cases` speaks about. -/
theorem findMax_eq_foldl (points : List (ℝ × ℝ)) (s e : Nat) :
    findMax points s e =
      (List.range' (s + 1) (e - (s + 1))).foldl
        (fun a i =>
          if a.1 < perpendicularDistance (points.getD i (0, 0))
              (points.getD s (0, 0)) (points.getD e (0, 0)) then
            (perpendicularDistance (points.getD i (0, 0)) (points.getD s (0, 0))
              (points.getD e (0, 0)), i)
          else a)
        (0, s) := rfl

/-- The maximum distance found by the scan is never negative. -/
theorem findMax_fst_nonneg (points : List (ℝ × ℝ)) (s e : Nat) :
    0 ≤ (findMax points s e).1 := by
  rw [findMax_eq_foldl]
  rcases foldlMax_cases
      (fun i => perpendicularDistance (points.getD i (0, 0)) (points.getD s (0, 0))
        (points.getD e (0, 0)))
      (List.range' (s + 1) (e - (s + 1))) (0, s) with h | h
  · rw [h]
  · exact le_of_lt h.2

/-- When the scan finds a strictly positive maximum distance, the reported
index is strictly interior to the range. -/
theorem findMax_pos_mem (points : List (ℝ × ℝ)) {s e : Nat}
    (h : 0 < (findMax points s e).1) :
    s < (findMax points s e).2 ∧ (findMax points s e).2 < e := by
  rw [findMax_eq_foldl] at h ⊢
  rcases foldlMax_cases
      (fun i => perpendicularDistance (points.getD i (0, 0)) (points.getD s (0, 0))
        (points.getD e (0, 0)))
      (List.range' (s + 1) (e - (s + 1))) (0, s) with h1 | h1
  · rw [h1] at h
    exact absurd h (lt_irrefl 0)
  · have h2 := h1.1
    rw [List.mem_range'_1] at h2
    omega

/-! ## Helper lemmas about `rdp` -/

/-- With a nonnegative tolerance, `rdp` always terminates: whenever the kept
distance is positive the split index is strictly interior, so the recursion
strictly shrinks. -/
theorem rdp_isSome_of_nonneg (points : List (ℝ × ℝ)) {tol : ℝ} (ht : 0 ≤ tol) :
    ∀ n s e, e - s ≤ n → ∃ K, rdp points tol s e = some K := by
  intro n
  induction n with
  | zero =>
    intro s e hn
    rw [rdp.eq_def, if_pos (show e ≤ s + 1 by omega)]
    exact ⟨∅, rfl⟩
  | succ n ih =>
    intro s e hn
    rw [rdp.eq_def]
    by_cases h1 : e ≤ s + 1
    · rw [if_pos h1]
      exact ⟨∅, rfl⟩
    · rw [if_neg h1]
      by_cases h2 : tol < (findMax points s e).1
      · rw [if_pos h2]
        have hb := findMax_pos_mem points (lt_of_le_of_lt ht h2)
        rw [dif_pos hb]
        obtain ⟨Kl, hKl⟩ := ih s (findMax points s e).2 (by omega)
        obtain ⟨Kr, hKr⟩ := ih (findMax points s e).2 e (by omega)
        rw [hKl, hKr]
        exact ⟨_, rfl⟩
      · rw [if_neg h2]
        exact ⟨∅, rfl⟩

/-- The index sets kept by `rdp` shrink as the tolerance grows: both
tolerances split at the same maximum-distance index, and a subrange that
survives the larger tolerance also survives the smaller one. -/
theorem rdp_subset_of_le (points : List (ℝ × ℝ)) {t1 t2 : ℝ}
    (h0 : 0 ≤ t1) (h12 : t1 ≤ t2) :
    ∀ n s e K1 K2, e - s ≤ n → rdp points t1 s e = some K1 →
      rdp points t2 s e = some K2 → K2 ⊆ K1 := by
  intro n
  induction n with
  | zero =>
    intro s e K1 K2 hn hr1 hr2
    rw [rdp.eq_def, if_pos (show e ≤ s + 1 by omega)] at hr2
    injection hr2 with h
    rw [← h]
    exact Finset.empty_subset _
  | succ n ih =>
    intro s e K1 K2 hn hr1 hr2
    rw [rdp.eq_def] at hr1 hr2
    by_cases h1 : e ≤ s + 1
    · rw [if_pos h1] at hr2
      injection hr2 with h
      rw [← h]
      exact Finset.empty_subset _
    · rw [if_neg h1] at hr1 hr2
      by_cases h2 : t2 < (findMax points s e).1
      · have h2' : t1 < (findMax points s e).1 := lt_of_le_of_lt h12 h2
        rw [if_pos h2'] at hr1
        rw [if_pos h2] at hr2
        have hb := findMax_pos_mem points (lt_of_le_of_lt h0 h2')
        rw [dif_pos hb] at hr1 hr2
        obtain ⟨L1, hL1⟩ := rdp_isSome_of_nonneg points h0 n s
          (findMax points s e).2 (by omega)
        obtain ⟨R1, hR1⟩ := rdp_isSome_of_nonneg points h0 n
          (findMax points s e).2 e (by omega)
        obtain ⟨L2, hL2⟩ := rdp_isSome_of_nonneg points (le_trans h0 h12) n s
          (findMax points s e).2 (by omega)
        obtain ⟨R2, hR2⟩ := rdp_isSome_of_nonneg points (le_trans h0 h12) n
          (findMax points s e).2 e (by omega)
        rw [hL1, hR1] at hr1
        rw [hL2, hR2] at hr2
        injection hr1 with hK1
        injection hr2 with hK2
        rw [← hK1, ← hK2]
        exact Finset.insert_subset_insert _
          (Finset.union_subset_union
            (ih s (findMax points s e).2 L1 L2 (by omega) hL1 hL2)
            (ih (findMax points s e).2 e R1 R2 (by omega) hR1 hR2))
      · rw [if_neg h2] at hr2
        injection hr2 with h
        rw [← h]
        exact Finset.empty_subset _

/-- With a negative tolerance every comparison `tolerance < maxDist` succeeds
(distances are square roots, hence nonnegative), so `rdp` either diverges
(`none`) or keeps every interior index of the range. -/
theorem rdp_of_neg (points : List (ℝ × ℝ)) {tol : ℝ} (ht : tol < 0) :
    ∀ n s e, e - s ≤ n →
      rdp points tol s e = none ∨ rdp points tol s e = some (Finset.Ioo s e) := by
  intro n
  induction n with
  | zero =>
    intro s e hn
    rw [rdp.eq_def, if_pos (show e ≤ s + 1 by omega)]
    right
    simp only [Option.some.injEq]
    ext x
    simp only [Finset.not_mem_empty, Finset.mem_Ioo, false_iff, not_and, not_lt]
    omega
  | succ n ih =>
    intro s e hn
    rw [rdp.eq_def]
    by_cases h1 : e ≤ s + 1
    · rw [if_pos h1]
      right
      simp only [Option.some.injEq]
      ext x
      simp only [Finset.not_mem_empty, Finset.mem_Ioo, false_iff, not_and, not_lt]
      omega
    · rw [if_neg h1]
      have h2 : tol < (findMax points s e).1 :=
        lt_of_lt_of_le ht (findMax_fst_nonneg points s e)
      rw [if_pos h2]
      by_cases hb : s < (findMax points s e).2 ∧ (findMax points s e).2 < e
      · rw [dif_pos hb]
        rcases ih s (findMax points s e).2 (by omega) with hL | hL
        · left
          rw [hL]
        · rcases ih (findMax points s e).2 e (by omega) with hR | hR
          · left
            rw [hL, hR]
          · right
            rw [hL, hR]
            simp only [Option.some.injEq]
            ext x
            simp only [Finset.mem_insert, Finset.mem_union, Finset.mem_Ioo]
            omega
      · left
        rw [dif_neg hb]

/-- Mapping each index of a list back to its entry reproduces the list. -/
theorem map_getD_range (l : List (ℝ × ℝ)) :
    (List.range l.length).map (fun i => l.getD i (0, 0)) = l := by
  apply List.ext_getElem
  · simp
  · intro i h1 h2
    simp only [List.getElem_map, List.getElem_range]
    exact List.getD_eq_getElem l (0, 0) h2

/-! ## Claim theorems about `simplifyRing` -/

/-- Claim C1: for every ring and every pair of tolerances `0 ≤ t1 ≤ t2`,
`simplifyRing` terminates at both tolerances and the ring simplified at the
larger tolerance has a point count less than or equal to the point count of
the ring simplified at the smaller tolerance. -/
theorem simplifyRing_count_monotone (ring : List (ℝ × ℝ)) (t1 t2 : ℝ)
    (h0 : 0 ≤ t1) (h12 : t1 ≤ t2) :
    ∃ s1 s2, simplifyRing ring t1 = some s1 ∧ simplifyRing ring t2 = some s2 ∧
      s2.length ≤ s1.length := by
  by_cases h4 : ring.length < 4
  · refine ⟨ring, ring, ?_, ?_, le_refl _⟩ <;> (unfold simplifyRing; rw [if_pos h4])
  · obtain ⟨K1, hK1⟩ := rdp_isSome_of_nonneg ring h0 ring.length 0
      (ring.length - 1) (by omega)
    obtain ⟨K2, hK2⟩ := rdp_isSome_of_nonneg ring (le_trans h0 h12) ring.length 0
      (ring.length - 1) (by omega)
    have hsub : K2 ⊆ K1 := rdp_subset_of_le ring h0 h12 ring.length 0
      (ring.length - 1) K1 K2 (by omega) hK1 hK2
    have e1 : simplifyRing ring t1 =
        some (((insert 0 (insert (ring.length - 1) K1)).sort (· ≤ ·)).map
          (fun i => ring.getD i (0, 0))) := by
      unfold simplifyRing
      rw [if_neg h4, hK1]
    have e2 : simplifyRing ring t2 =
        some (((insert 0 (insert (ring.length - 1) K2)).sort (· ≤ ·)).map
          (fun i => ring.getD i (0, 0))) := by
      unfold simplifyRing
      rw [if_neg h4, hK2]
    refine ⟨_, _, e1, e2, ?_⟩
    rw [List.length_map, List.length_map, Finset.length_sort, Finset.length_sort]
    exact Finset.card_le_card
      (Finset.insert_subset_insert _ (Finset.insert_subset_insert _ hsub))

/-- Witness for C1: the empty ring with tolerances `0 ≤ 1`. -/
theorem simplifyRing_count_monotone_witness :
    (0 : ℝ) ≤ 0 ∧ (0 : ℝ) ≤ 1 ∧
      ∃ s1 s2, simplifyRing [] 0 = some s1 ∧ simplifyRing [] 1 = some s2 ∧
        s2.length ≤ s1.length :=
  ⟨le_refl 0, zero_le_one, simplifyRing_count_monotone [] 0 1 (le_refl 0) zero_le_one⟩

/-- Claim C2: for every nonempty ring and every nonnegative tolerance,
`simplifyRing` terminates and its output contains the ring's first point
(index 0) and its last point (the last index). -/
theorem simplifyRing_keeps_endpoints (ring : List (ℝ × ℝ)) (tolerance : ℝ)
    (ht : 0 ≤ tolerance) (hne : ring ≠ []) :
    ∃ out, simplifyRing ring tolerance = some out ∧
      ring.getD 0 (0, 0) ∈ out ∧ ring.getD (ring.length - 1) (0, 0) ∈ out := by
  by_cases h4 : ring.length < 4
  · have hlen : 0 < ring.length := List.length_pos.2 hne
    refine ⟨ring, by unfold simplifyRing; rw [if_pos h4], ?_, ?_⟩
    · rw [List.getD_eq_getElem ring (0, 0) hlen]
      exact List.getElem_mem hlen
    · have hlt : ring.length - 1 < ring.length := by omega
      rw [List.getD_eq_getElem ring (0, 0) hlt]
      exact List.getElem_mem hlt
  · obtain ⟨K, hK⟩ := rdp_isSome_of_nonneg ring ht ring.length 0
      (ring.length - 1) (by omega)
    have e : simplifyRing ring tolerance =
        some (((insert 0 (insert (ring.length - 1) K)).sort (· ≤ ·)).map
          (fun i => ring.getD i (0, 0))) := by
      unfold simplifyRing
      rw [if_neg h4, hK]
    refine ⟨_, e, ?_, ?_⟩
    · exact List.mem_map.2 ⟨0, (Finset.mem_sort _).2 (Finset.mem_insert_self _ _), rfl⟩
    · exact List.mem_map.2 ⟨ring.length - 1,
        (Finset.mem_sort _).2 (Finset.mem_insert_of_mem (Finset.mem_insert_self _ _)), rfl⟩

/-- Witness for C2: a one-point ring with tolerance `0`. -/
theorem simplifyRing_keeps_endpoints_witness :
    (0 : ℝ) ≤ 0 ∧ ([((0 : ℝ), (0 : ℝ))] ≠ []) ∧
      ∃ out, simplifyRing [((0 : ℝ), (0 : ℝ))] 0 = some out ∧
        [((0 : ℝ), (0 : ℝ))].getD 0 (0, 0) ∈ out ∧
        [((0 : ℝ), (0 : ℝ))].getD ([((0 : ℝ), (0 : ℝ))].length - 1) (0, 0) ∈ out :=
  ⟨le_refl 0, by simp,
    simplifyRing_keeps_endpoints [((0 : ℝ), (0 : ℝ))] 0 (le_refl 0) (by simp)⟩

/-- Claim C8, amended: `simplifyRing` performs no tolerance validation.
With a negative tolerance it either fails to terminate (the `none` case of
the embedding, reachable only on degenerate configurations) or returns the
ring unchanged, because every nonnegative distance exceeds the tolerance so
every interior index is kept. -/
theorem simplifyRing_negative_tolerance (ring : List (ℝ × ℝ)) (tolerance : ℝ)
    (ht : tolerance < 0) :
    simplifyRing ring tolerance = none ∨ simplifyRing ring tolerance = some ring := by
  by_cases h4 : ring.length < 4
  · right
    unfold simplifyRing
    rw [if_pos h4]
  · rcases rdp_of_neg ring ht ring.length 0 (ring.length - 1) (by omega) with h | h
    · left
      unfold simplifyRing
      rw [if_neg h4, h]
    · right
      unfold simplifyRing
      rw [if_neg h4, h]
      show some (((insert 0 (insert (ring.length - 1)
          (Finset.Ioo 0 (ring.length - 1)))).sort (· ≤ ·)).map
            (fun i => ring.getD i (0, 0))) = some ring
      have hkeep : insert 0 (insert (ring.length - 1) (Finset.Ioo 0 (ring.length - 1))) =
          Finset.range ring.length := by
        ext x
        simp only [Finset.mem_insert, Finset.mem_Ioo, Finset.mem_range]
        omega
      rw [hkeep, Finset.sort_range, map_getD_range]

/-- Witness for the amended C8: a one-point ring with tolerance `-1`. -/
theorem simplifyRing_negative_tolerance_witness :
    (-1 : ℝ) < 0 ∧
      (simplifyRing [((0 : ℝ), (0 : ℝ))] (-1) = none ∨
        simplifyRing [((0 : ℝ), (0 : ℝ))] (-1) = some [((0 : ℝ), (0 : ℝ))]) :=
  ⟨neg_one_lt_zero, simplifyRing_negative_tolerance [((0 : ℝ), (0 : ℝ))] (-1) neg_one_lt_zero⟩

/-! ## Concrete evaluation of `simplifyRing` on the unit square -/

/-- Distance from `(0,1)` to the chord `(0,0)`–`(1,0)` is `1`. -/
theorem perpDist_left : perpendicularDistance (0, 1) (0, 0) (1, 0) = 1 := by
  unfold perpendicularDistance
  norm_num

/-- Distance from `(1,1)` to the chord `(0,0)`–`(1,0)` is `1`. -/
theorem perpDist_right : perpendicularDistance (1, 1) (0, 0) (1, 0) = 1 := by
  unfold perpendicularDistance
  norm_num

/-- Distance from `(1,1)` to the chord `(0,1)`–`(1,0)` is positive. -/
theorem perpDist_diag_pos : 0 < perpendicularDistance (1, 1) (0, 1) (1, 0) := by
  unfold perpendicularDistance
  norm_num

/-- The maximum-distance scan over the whole square range keeps distance `1`
at index `1` (the first index attaining the maximum wins the tie with
index `2`). -/
theorem findMax_sq_03 : findMax unitSquare 0 3 = (1, 1) := by
  rw [findMax_eq_foldl]
  have hr : List.range' (0 + 1) (3 - (0 + 1)) = [1, 2] := rfl
  have g0 : unitSquare.getD 0 (0, 0) = (0, 0) := rfl
  have g1 : unitSquare.getD 1 (0, 0) = (0, 1) := rfl
  have g2 : unitSquare.getD 2 (0, 0) = (1, 1) := rfl
  have g3 : unitSquare.getD 3 (0, 0) = (1, 0) := rfl
  rw [hr]
  simp only [List.foldl_cons, List.foldl_nil, g0, g1, g2, g3, perpDist_left,
    perpDist_right]
  norm_num

/-- The scan over the upper subrange keeps the positive diagonal distance at
index `2`. -/
theorem findMax_sq_13 :
    findMax unitSquare 1 3 = (perpendicularDistance (1, 1) (0, 1) (1, 0), 2) := by
  rw [findMax_eq_foldl]
  have hr : List.range' (1 + 1) (3 - (1 + 1)) = [2] := rfl
  have g1 : unitSquare.getD 1 (0, 0) = (0, 1) := rfl
  have g2 : unitSquare.getD 2 (0, 0) = (1, 1) := rfl
  have g3 : unitSquare.getD 3 (0, 0) = (1, 0) := rfl
  rw [hr]
  simp only [List.foldl_cons, List.foldl_nil, g1, g2, g3]
  rw [if_pos (show ((0 : ℝ), (1 : Nat)).1 < perpendicularDistance (1, 1) (0, 1) (1, 0)
    from perpDist_diag_pos)]

/-- `rdp` on an empty interior returns the empty index set. -/
theorem rdp_sq_01 : rdp unitSquare (-1) 0 1 = some ∅ := by
  rw [rdp.eq_def, if_pos (show (1 : Nat) ≤ 0 + 1 by norm_num)]

/-- `rdp` on an empty interior returns the empty index set. -/
theorem rdp_sq_12 : rdp unitSquare (-1) 1 2 = some ∅ := by
  rw [rdp.eq_def, if_pos (show (2 : Nat) ≤ 1 + 1 by norm_num)]

/-- `rdp` on an empty interior returns the empty index set. -/
theorem rdp_sq_23 : rdp unitSquare (-1) 2 3 = some ∅ := by
  rw [rdp.eq_def, if_pos (show (3 : Nat) ≤ 2 + 1 by norm_num)]

/-- `rdp` on the upper subrange of the square keeps index `2`. -/
theorem rdp_sq_13 : rdp unitSquare (-1) 1 3 = some {2} := by
  rw [rdp.eq_def, if_neg (show ¬((3 : Nat) ≤ 1 + 1) by norm_num), findMax_sq_13]
  rw [if_pos (show (-1 : ℝ) < (perpendicularDistance (1, 1) (0, 1) (1, 0), (2 : Nat)).1
    from lt_trans neg_one_lt_zero perpDist_diag_pos)]
  rw [dif_pos (show 1 < (perpendicularDistance (1, 1) (0, 1) (1, 0), (2 : Nat)).2 ∧
      (perpendicularDistance (1, 1) (0, 1) (1, 0), (2 : Nat)).2 < 3
    from ⟨by norm_num, by norm_num⟩)]
  show (match rdp unitSquare (-1) 1 2, rdp unitSquare (-1) 2 3 with
    | some l, some r => some (insert 2 (l ∪ r))
    | _, _ => none) = some {2}
  rw [rdp_sq_12, rdp_sq_23]
  show some (insert 2 (∅ ∪ ∅)) = some {2}
  rw [Finset.empty_union, insert_emptyc_eq]

/-- `rdp` over the whole square keeps both interior indices. -/
theorem rdp_sq_03 : rdp unitSquare (-1) 0 3 = some {1, 2} := by
  rw [rdp.eq_def, if_neg (show ¬((3 : Nat) ≤ 0 + 1) by norm_num), findMax_sq_03]
  rw [if_pos (show (-1 : ℝ) < ((1 : ℝ), (1 : Nat)).1 by norm_num)]
  rw [dif_pos (show 0 < ((1 : ℝ), (1 : Nat)).2 ∧ ((1 : ℝ), (1 : Nat)).2 < 3
    from ⟨by norm_num, by norm_num⟩)]
  show (match rdp unitSquare (-1) 0 1, rdp unitSquare (-1) 1 3 with
    | some l, some r => some (insert 1 (l ∪ r))
    | _, _ => none) = some {1, 2}
  rw [rdp_sq_01, rdp_sq_13]
  show some (insert 1 (∅ ∪ {2})) = some {1, 2}
  rw [Finset.empty_union]

/-- Counterexample to claim C8 as stated: on the 4-point unit-square ring a
negative tolerance is not rejected — `simplifyRing` runs the full algorithm
and produces a simplified ring (here the ring itself, every interior
distance being positive and hence above the tolerance). -/
theorem simplifyRing_accepts_negative_tolerance :
    simplifyRing unitSquare (-1) = some unitSquare := by
  unfold simplifyRing
  rw [if_neg (show ¬(unitSquare.length < 4) by decide),
    show unitSquare.length - 1 = 3 from rfl, rdp_sq_03]
  show some (((insert 0 (insert 3 ({1, 2} : Finset Nat))).sort (· ≤ ·)).map
    (fun i => unitSquare.getD i (0, 0))) = some unitSquare
  rw [show (insert 0 (insert 3 ({1, 2} : Finset Nat))) = Finset.range 4 by decide]
  rw [Finset.sort_range]
  rfl

/-! ## Claim theorems about the tabular pipeline -/

/-- Searching for the first `' '` and taking the prefix before it agrees with
`takeWhile (· ≠ ' ')` guarded by membership of `' '`. -/
theorem indexOf_take_eq_takeWhile (t : List Char) :
    (match jsIndexOf t ' ' with
      | none => (none : Option (List Char))
      | some i => some (t.take i)) =
    if ' ' ∈ t then some (t.takeWhile (fun c => c != ' ')) else none := by
  induction t with
  | nil => rfl
  | cons c t ih =>
    simp only [jsIndexOf]
    by_cases hc : c = ' '
    · subst hc
      rw [if_pos rfl, if_pos (List.mem_cons_self ' ' t)]
      simp [List.takeWhile_cons]
    · rw [if_neg hc]
      cases h : jsIndexOf t ' ' with
      | none =>
        rw [h] at ih
        by_cases hm : ' ' ∈ t
        · rw [if_pos hm] at ih
          exact absurd ih (by simp)
        · rw [if_neg hm] at ih
          rw [if_neg (by simp [List.mem_cons, hm, eq_comm, hc])]
          rfl
      | some i =>
        rw [h] at ih
        by_cases hm : ' ' ∈ t
        · rw [if_pos hm] at ih
          injection ih with ih'
          rw [if_pos (List.mem_cons_of_mem c hm)]
          show some ((c :: t).take (i + 1)) = some ((c :: t).takeWhile (fun c => c != ' '))
          rw [List.take_succ_cons, List.takeWhile_cons, if_pos (by simp [hc]), ih']
        · rw [if_neg hm] at ih
          exact absurd ih (by simp)

/-- Claim C4, amended: `extractPostcodeDistrict` trims the string, uppercases
it, and returns the prefix before the first space character specifically (a
tab or other whitespace does not split), rejecting with `none` when the
trimmed string contains no space; `"SW1A 1AA"` and `"SW1 2BB"` yield the
distinct keys `"SW1A"` and `"SW1"`. -/
theorem extractPostcodeDistrict_spec :
    (∀ s : List Char, extractPostcodeDistrict s = extractDistrictSpec s) ∧
    extractPostcodeDistrict ['S', 'W', '1', 'A', ' ', '1', 'A', 'A'] =
      some ['S', 'W', '1', 'A'] ∧
    extractPostcodeDistrict ['S', 'W', '1', ' ', '2', 'B', 'B'] =
      some ['S', 'W', '1'] ∧
    (['S', 'W', '1', 'A'] : List Char) ≠ ['S', 'W', '1'] := by
  refine ⟨?_, by decide, by decide, by decide⟩
  intro s
  unfold extractPostcodeDistrict extractDistrictSpec
  exact indexOf_take_eq_takeWhile (jsToUpper (jsTrim s))

/-- Counterexample to claim C4 as stated: `"SW1A\t1AA"` contains a
whitespace character (the tab) but no space, so under the claim the derived
key would be `"SW1A"`; the code searches only for `' '` and rejects with
`none`. -/
theorem extractPostcodeDistrict_tab_counterexample :
    extractPostcodeDistrict ['S', 'W', '1', 'A', '\t', '1', 'A', 'A'] = none ∧
    isJSSpace '\t' = true ∧
    '\t' ∈ (['S', 'W', '1', 'A', '\t', '1', 'A', 'A'] : List Char) := by
  decide

/-- Claim C5: for every nonempty list, `calculateMedian` equals the middle
element of the ascending sort at odd length, and the rounded average
(`Math.round`) of the two middle elements at even length; in particular
`median [1,3,5] = 3` and `median [1,3,5,7] = 4`. -/
theorem calculateMedian_spec :
    (∀ (l s : List Int), l ≠ [] → List.Perm l s → List.Sorted (· ≤ ·) s →
      calculateMedian l =
        if l.length % 2 = 0 then
          jsRound (((s.getD (l.length / 2 - 1) 0 : ℚ) +
            (s.getD (l.length / 2) 0 : ℚ)) / 2)
        else s.getD (l.length / 2) 0) ∧
    calculateMedian [1, 3, 5] = 3 ∧ calculateMedian [1, 3, 5, 7] = 4 := by
  refine ⟨?_, by decide,
    by norm_num [calculateMedian, jsRound, List.insertionSort, List.orderedInsert]⟩
  intro l s hne hperm hsorted
  have hs : l.insertionSort (· ≤ ·) = s :=
    List.eq_of_perm_of_sorted ((List.perm_insertionSort _ l).trans hperm)
      (List.sorted_insertionSort _ l) hsorted
  unfold calculateMedian
  rw [if_neg (fun h => hne (List.length_eq_zero.1 h))]
  show (if (l.insertionSort (· ≤ ·)).length % 2 = 0 then
      jsRound ((((l.insertionSort (· ≤ ·)).getD
          ((l.insertionSort (· ≤ ·)).length / 2 - 1) 0 : ℚ) +
        ((l.insertionSort (· ≤ ·)).getD ((l.insertionSort (· ≤ ·)).length / 2) 0 : ℚ)) / 2)
    else (l.insertionSort (· ≤ ·)).getD ((l.insertionSort (· ≤ ·)).length / 2) 0) = _
  rw [hs, ← hperm.length_eq]

/-- Witness for C5 at the list `[2, 1]` with sorted permutation `[1, 2]`. -/
theorem calculateMedian_spec_witness :
    (([2, 1] : List Int) ≠ [] ∧ List.Perm ([2, 1] : List Int) [1, 2] ∧
      List.Sorted (· ≤ ·) ([1, 2] : List Int)) ∧
    calculateMedian [2, 1] =
      (if ([2, 1] : List Int).length % 2 = 0 then
        jsRound (((([1, 2] : List Int).getD (([2, 1] : List Int).length / 2 - 1) 0 : ℚ) +
          (([1, 2] : List Int).getD (([2, 1] : List Int).length / 2) 0 : ℚ)) / 2)
      else ([1, 2] : List Int).getD (([2, 1] : List Int).length / 2) 0) :=
  ⟨⟨by decide, by decide, by decide⟩,
    calculateMedian_spec.1 [2, 1] [1, 2] (by decide) (by decide) (by decide)⟩

/-- `jsRound` sends `z` to `n` exactly when `z` lies in the half-open
interval `[n - 1/2, n + 1/2)`: the nearest integer, ties toward `+∞`. -/
theorem jsRound_eq_iff (z : ℚ) (n : ℤ) :
    jsRound z = n ↔ (n : ℚ) - 1 / 2 ≤ z ∧ z < (n : ℚ) + 1 / 2 := by
  unfold jsRound
  rw [Int.floor_eq_iff]
  constructor
  · rintro ⟨h1, h2⟩
    exact ⟨by linarith, by linarith⟩
  · rintro ⟨h1, h2⟩
    exact ⟨by linarith, by linarith⟩

/-- Claim C6, amended: with `factor = 10 ^ p`, each coordinate is sent to
the unique grid value `n / 10 ^ p` whose scaled integer `n` satisfies
`n - 1/2 ≤ x·10^p < n + 1/2` — rounding to the nearest integer with ties
toward positive infinity (`Math.round`), not away from zero: `-0.5` scales
to itself at `p = 0` and rounds to `0`, not `-1`. -/
theorem roundCoord_characterization (p : Nat) (x y : ℚ) (n m : ℤ) :
    roundCoord p (x, y) = ((n : ℚ) / 10 ^ p, (m : ℚ) / 10 ^ p) ↔
      ((n : ℚ) - 1 / 2 ≤ x * 10 ^ p ∧ x * 10 ^ p < (n : ℚ) + 1 / 2 ∧
        (m : ℚ) - 1 / 2 ≤ y * 10 ^ p ∧ y * 10 ^ p < (m : ℚ) + 1 / 2) := by
  have hf : (10 : ℚ) ^ p ≠ 0 := by positivity
  constructor
  · intro h
    have h1 := congrArg Prod.fst h
    have h2 := congrArg Prod.snd h
    simp only [roundCoord] at h1 h2
    have e1 : jsRound (x * 10 ^ p) = n := by
      have h1' := congrArg (fun t : ℚ => t * 10 ^ p) h1
      simp only at h1'
      rw [div_mul_cancel₀ _ hf, div_mul_cancel₀ _ hf] at h1'
      exact_mod_cast h1'
    have e2 : jsRound (y * 10 ^ p) = m := by
      have h2' := congrArg (fun t : ℚ => t * 10 ^ p) h2
      simp only at h2'
      rw [div_mul_cancel₀ _ hf, div_mul_cancel₀ _ hf] at h2'
      exact_mod_cast h2'
    obtain ⟨a1, a2⟩ := (jsRound_eq_iff _ _).1 e1
    obtain ⟨b1, b2⟩ := (jsRound_eq_iff _ _).1 e2
    exact ⟨a1, a2, b1, b2⟩
  · rintro ⟨a1, a2, b1, b2⟩
    have e1 : jsRound (x * 10 ^ p) = n := (jsRound_eq_iff _ _).2 ⟨a1, a2⟩
    have e2 : jsRound (y * 10 ^ p) = m := (jsRound_eq_iff _ _).2 ⟨b1, b2⟩
    show ((jsRound (x * 10 ^ p) : ℚ) / 10 ^ p, (jsRound (y * 10 ^ p) : ℚ) / 10 ^ p) =
      ((n : ℚ) / 10 ^ p, (m : ℚ) / 10 ^ p)
    rw [e1, e2]

/-- Counterexample to claim C6 as stated: at precision `0` the coordinate
`-0.5` is a tie, and the code rounds it to `0` (toward positive infinity),
not to `-1` as round-half-away-from-zero would. -/
theorem roundCoord_half_counterexample :
    roundCoord 0 (-(1 / 2 : ℚ), 0) = (0, 0) ∧ (0 : ℚ) ≠ -1 := by
  constructor
  · norm_num [roundCoord, jsRound]
  · norm_num

/-- Claim C7: quantization is idempotent — rounding an already-rounded
coordinate pair at the same precision is a no-op. -/
theorem roundCoord_idempotent (p : Nat) (c : ℚ × ℚ) :
    roundCoord p (roundCoord p c) = roundCoord p c := by
  have hf : (10 : ℚ) ^ p ≠ 0 := by positivity
  have key : ∀ z : ℚ, jsRound ((jsRound z : ℚ) / 10 ^ p * 10 ^ p) = jsRound z := by
    intro z
    rw [div_mul_cancel₀ _ hf]
    unfold jsRound
    rw [Int.floor_int_add]
    norm_num
  cases c with
  | mk a b =>
    show ((jsRound ((jsRound (a * 10 ^ p) : ℚ) / 10 ^ p * 10 ^ p) : ℚ) / 10 ^ p,
        (jsRound ((jsRound (b * 10 ^ p) : ℚ) / 10 ^ p * 10 ^ p) : ℚ) / 10 ^ p) =
      ((jsRound (a * 10 ^ p) : ℚ) / 10 ^ p, (jsRound (b * 10 ^ p) : ℚ) / 10 ^ p)
    rw [key (a * 10 ^ p), key (b * 10 ^ p)]

/-- Claim C9: `calculateMedian` is total on the empty list and returns `0`
rather than failing. -/
theorem calculateMedian_empty : calculateMedian [] = 0 := rfl

/-- The scanning loop of the reader always emits at least the current field:
its result is never the empty list, whatever the flag, accumulator and
remaining input. -/
theorem parseCSVLineAux_ne_nil (inQ : Bool) (cur : List Char) (l : List Char) :
    parseCSVLineAux inQ cur l ≠ [] := by
  induction inQ, cur, l using parseCSVLineAux.induct <;> simp_all [parseCSVLineAux]

/-- Claim C10: `parseCSVLine` is total and yields at least one field on every
line; the empty line yields one empty field, and a line that ends inside an
unclosed quoted region emits the accumulated partial content as the final
field (here `a,"bc` yields the fields `a` and `bc`). -/
theorem parseCSVLine_total :
    (∀ line : List Char, 1 ≤ (parseCSVLine line).length) ∧
    parseCSVLine [] = [[]] ∧
    parseCSVLine ['a', ',', '"', 'b', 'c'] = [['a'], ['b', 'c']] := by
  refine ⟨?_, by decide, by decide⟩
  intro line
  exact List.length_pos.2 (parseCSVLineAux_ne_nil false [] line)

/-- Claim C3, amended: a record with fewer than 4 fields, an empty postcode
field, a non-numeric or non-positive value field, a date that parses to a
time older than the cutoff, or a key-source field from which no district can
be derived is skipped: the skip counter is incremented and the groups and
processed counter are untouched.  (A record whose date field fails to parse
is not covered: the `NaN` comparison is false, so the date filter does not
fire and such a record can be accepted.) -/
theorem processLine_skips (cutoff : Int) (st : AggState) (line : List Char)
    (h : (parseCSVLine line).length < 4 ∨
         (parseCSVLine line).getD 3 [] = [] ∨
         jsParseInt ((parseCSVLine line).getD 1 []) = none ∨
         (jsParseInt ((parseCSVLine line).getD 1 [])).getD 0 ≤ 0 ∨
         (∃ t, jsDate ((parseCSVLine line).getD 2 []) = some t ∧ t < cutoff) ∨
         extractPostcodeDistrict ((parseCSVLine line).getD 3 []) = none) :
    processLine cutoff st line = { st with skipped := st.skipped + 1 } := by
  simp only [processLine]
  by_cases h1 : (parseCSVLine line).length < 4
  · rw [if_pos h1]
  · rw [if_neg h1]
    by_cases h2 : (parseCSVLine line).getD 3 [] = [] ∨
        jsParseInt ((parseCSVLine line).getD 1 []) = none ∨
        (jsParseInt ((parseCSVLine line).getD 1 [])).getD 0 ≤ 0
    · rw [if_pos h2]
    · rw [if_neg h2]
      by_cases h3 : (match jsDate ((parseCSVLine line).getD 2 []) with
                     | some t => decide (t < cutoff)
                     | none => false) = true
      · rw [if_pos h3]
      · rw [if_neg h3]
        cases hd : extractPostcodeDistrict ((parseCSVLine line).getD 3 []) with
        | none => rfl
        | some district =>
          exfalso
          rcases h with h | h | h | h | ⟨t, ht1, ht2⟩ | h
          · exact h1 h
          · exact h2 (Or.inl h)
          · exact h2 (Or.inr (Or.inl h))
          · exact h2 (Or.inr (Or.inr h))
          · exact h3 (by rw [ht1]; simpa using ht2)
          · rw [h] at hd
            cases hd

/-- Witness for the amended C3: the two-field line `a,b` is skipped and
mutates nothing but the skip counter. -/
theorem processLine_skips_witness :
    ((parseCSVLine ['a', ',', 'b']).length < 4 ∨
      (parseCSVLine ['a', ',', 'b']).getD 3 [] = [] ∨
      jsParseInt ((parseCSVLine ['a', ',', 'b']).getD 1 []) = none ∨
      (jsParseInt ((parseCSVLine ['a', ',', 'b']).getD 1 [])).getD 0 ≤ 0 ∨
      (∃ t, jsDate ((parseCSVLine ['a', ',', 'b']).getD 2 []) = some t ∧ t < 0) ∨
      extractPostcodeDistrict ((parseCSVLine ['a', ',', 'b']).getD 3 []) = none) ∧
    processLine 0 ⟨[], 0, 0⟩ ['a', ',', 'b'] =
      { (⟨[], 0, 0⟩ : AggState) with skipped := (⟨[], 0, 0⟩ : AggState).skipped + 1 } :=
  ⟨Or.inl (by decide),
    processLine_skips 0 ⟨[], 0, 0⟩ ['a', ',', 'b'] (Or.inl (by decide))⟩

/-- Counterexample to claim C3 as stated: the record `id,100,notadate,AB1 2CD`
has an unparseable date field, which the claim says is skipped; instead the
`NaN` comparison `date < twoYearsAgo` is false, so the record passes the date
filter, creates the group `AB1`, bumps `processed` to 1 and leaves `skipped`
at 0 — even with a cutoff (year 9999 here) that every parseable date would
fail. -/
theorem processLine_accepts_unparseable_date :
    jsDate ((parseCSVLine badDateLine).getD 2 []) = none ∧
    processLine 99990101 ⟨[], 0, 0⟩ badDateLine =
      ⟨[(['A', 'B', '1'], [100])], 1, 0⟩ := by
  constructor
  · decide
  · decide
